import Mathlib

/-!
Verification of the source classifier (`crates/puffin-distribution/src/source.rs`)
and the package-name specifier collapser
(`crates/uv-configuration/src/name_specifiers.rs`).

Strings are modelled as lists of characters (`Chars`).  The external `url`
crate is modelled by a `Url` structure holding a scheme, the part after the
scheme, and an optional fragment; `Url.parse` and `Url.asStr` model
`Url::parse` and `Url::as_str`.  The VCS locator (`puffin_git::Git`, a crate
of the repository not present under `src/`) is modelled from the spec.
-/

namespace Uv

/-- Strings modelled as character lists. -/
abbrev Chars := List Char

/-- Coerce a Lean string literal to the character-list model. -/
def chars (s : String) : Chars := s.data

/-- Split a list at the first occurrence of `sep`: returns the part before and
the part after that occurrence, or `none` when `sep` does not occur. -/
def splitAtFirst (sep : Char) : Chars → Option (Chars × Chars)
  | [] => none
  | c :: cs =>
    if c = sep then some ([], cs)
    else (splitAtFirst sep cs).map (fun p => (c :: p.1, p.2))

/-- Split a list on every occurrence of `sep`, keeping empty pieces, as
Rust's `str::split` does. -/
def splitOnChar (sep : Char) : Chars → List Chars
  | [] => [[]]
  | c :: cs =>
    if c = sep then [] :: splitOnChar sep cs
    else
      match splitOnChar sep cs with
      | [] => [[c]]
      | t :: ts => (c :: t) :: ts

/-- Model of Rust's `str::strip_prefix`: `some r` when `s = p ++ r`. -/
def stripLead : Chars → Chars → Option Chars
  | [], s => some s
  | _ :: _, [] => none
  | p :: ps, c :: cs => if p = c then stripLead ps cs else none

/-- Characters allowed after the first character of a URL scheme. -/
def isSchemeChar (c : Char) : Bool :=
  c.isAlpha || c.isDigit || c = '+' || c = '-' || c = '.'

/-- A URL scheme is a letter followed by letters, digits, `+`, `-` or `.`. -/
def validScheme : Chars → Bool
  | [] => false
  | c :: cs => c.isAlpha && cs.all isSchemeChar

/-- Model of the external `url::Url` value: the scheme, the remainder of the
URL up to the fragment separator, and the optional fragment. -/
structure Url where
  scheme : Chars
  rest : Chars
  fragment : Option Chars
deriving DecidableEq

/-- Serialization of an optional fragment: `#`-prefixed when present. -/
def fragPart : Option Chars → Chars
  | none => []
  | some f => '#' :: f

/-- Model of `Url::as_str`: `scheme ":" rest ["#" fragment]`. -/
def Url.asStr (u : Url) : Chars :=
  u.scheme ++ ':' :: u.rest ++ fragPart u.fragment

/-- Model of `Url::parse`: split off the fragment at the first `#`, then
require a valid `scheme:` head; `none` models a `url::ParseError`. -/
def Url.parse (s : Chars) : Option Url :=
  let pf : Chars × Option Chars :=
    match splitAtFirst '#' s with
    | some p => (p.1, some p.2)
    | none => (s, none)
  match splitAtFirst ':' pf.1 with
  | none => none
  | some p => if validScheme p.1 then some ⟨p.1, p.2, pf.2⟩ else none

/-- Model of `Url::set_fragment` under the model (no percent-encoding is
modelled; the source performs none on the subdirectory it writes). -/
def setFragment (u : Url) (f : Option Chars) : Url :=
  { u with fragment := f }

/-- Modelled from the spec: the external VCS locator (`puffin_git::Git`,
whose crate is not under `src/`) identifies a repository URL, an optional
requested reference and an optional precisely-resolved revision, and is
opaque to this core except for those three accessors. -/
structure Git where
  url : Url
  reference : Option Chars
  precise : Option Chars
deriving DecidableEq

/-- Modelled from the spec: VCS URL schemes the locator constructor accepts. -/
def supportedVcsScheme (s : Chars) : Bool :=
  s = chars "https" || s = chars "http" || s = chars "ssh" ||
    s = chars "git" || s = chars "file"

/-- Modelled from the spec: the VCS-locator constructor `Git::try_from`,
which may reject an otherwise syntactically valid URL (e.g. an unsupported
VCS scheme); `none` models that rejection. -/
def Git.tryFrom (u : Url) : Option Git :=
  if supportedVcsScheme u.scheme then some ⟨u, none, none⟩ else none

/-- Modelled from the spec: re-serialization of the locator back to its
repository URL (`Url::from(git)` in `puffin_git`). -/
def Git.toUrl (g : Git) : Url := g.url

/-- The source of a distribution (`Source` in `source.rs`). -/
inductive Source where
  | RegistryUrl (url : Url)
  | RemoteUrl (url : Url) (subdirectory : Option Chars)
  | Git (git : Git) (subdirectory : Option Chars)
deriving DecidableEq

/-- The registry file record: only its `url` field is read by the code. -/
structure File where
  url : Chars
deriving DecidableEq

/-- A remote distribution reference: a registry entry (name, version, file)
or a direct URL. -/
inductive RemoteDistributionRef where
  | Registry (name : Chars) (version : Chars) (file : File)
  | Url (name : Chars) (url : Url)
deriving DecidableEq

/-- Errors of classification: a URL parse failure (carrying the offending
string) or a VCS-locator rejection (carrying the offending URL). -/
inductive ClassifyError where
  | urlParse (input : Chars)
  | vcsLocator (input : Url)
deriving DecidableEq

/-- Decidable equality of `Except` results, for evaluating the classifier on
concrete inputs. -/
instance {ε α : Type} [DecidableEq ε] [DecidableEq α] :
    DecidableEq (Except ε α) := fun x y =>
  match x, y with
  | .error a, .error b =>
    if h : a = b then .isTrue (by rw [h])
    else .isFalse (by intro hc; cases hc; exact h rfl)
  | .error _, .ok _ => .isFalse (by intro hc; cases hc)
  | .ok _, .error _ => .isFalse (by intro hc; cases hc)
  | .ok a, .ok b =>
    if h : a = b then .isTrue (by rw [h])
    else .isFalse (by intro hc; cases hc; exact h rfl)

/-- Subdirectory extraction from `TryFrom<&Url> for Source`: on the fragment,
split on `&` and take the first token from which `subdirectory=` can be
stripped. -/
def extractSubdirectory (u : Url) : Option Chars :=
  u.fragment.bind fun fragment =>
    (splitOnChar '&' fragment).findSome? fun tok =>
      stripLead (chars "subdirectory=") tok

/-- `TryFrom<&Url> for Source`: extract the subdirectory; when the URL's
string form has a `git+` head, strip it, re-parse, build the locator and
return `Git`; otherwise return `RemoteUrl` with the original URL. -/
def classify (url : Url) : Except ClassifyError Source :=
  let subdirectory := extractSubdirectory url
  match stripLead (chars "git+") url.asStr with
  | some rest =>
    match Url.parse rest with
    | none => .error (.urlParse rest)
    | some u2 =>
      match Git.tryFrom u2 with
      | none => .error (.vcsLocator u2)
      | some git => .ok (.Git git subdirectory)
  | none => .ok (.RemoteUrl url subdirectory)

/-- `TryFrom<&RemoteDistributionRef> for Source`: a registry entry parses its
file URL into `RegistryUrl` (surfacing the parse failure); a direct URL
delegates to `classify`. -/
def classifyRef : RemoteDistributionRef → Except ClassifyError Source
  | .Registry _ _ file =>
    match Url.parse file.url with
    | none => .error (.urlParse file.url)
    | some u => .ok (.RegistryUrl u)
  | .Url _ url => classify url

/-- `From<Source> for Url`: `none` models the `.expect("git url is valid")`
panic path in the `Git` branch; every other path is a `some`. -/
def sourceToUrl? : Source → Option Url
  | .RegistryUrl url => some url
  | .RemoteUrl url subdirectory =>
    match subdirectory with
    | some d => some (setFragment url (some (chars "subdirectory=" ++ d)))
    | none => some url
  | .Git git subdirectory =>
    match Url.parse (chars "git+" ++ (Git.toUrl git).asStr) with
    | none => none
    | some u0 =>
      match subdirectory with
      | some d => some (setFragment u0 (some (chars "subdirectory=" ++ d)))
      | none => some u0

/-- Validity of a constructed `Source`: the locator of a `Git` source holds a
URL with a wellformed scheme and no raw `#` before the fragment, as any URL
produced by `Url.parse` does. -/
def Source.validB : Source → Bool
  | .Git g _ => validScheme g.url.scheme && decide ('#' ∉ g.url.rest)
  | _ => true

/-- `pypi_types::ArchiveInfo`. -/
structure ArchiveInfo where
  hash : Option Chars
  hashes : Option (List Chars)
deriving DecidableEq

/-- `pypi_types::VcsKind`. -/
inductive VcsKind where
  | git
deriving DecidableEq

/-- `pypi_types::VcsInfo`. -/
structure VcsInfo where
  vcs : VcsKind
  commit_id : Option Chars
  requested_revision : Option Chars
deriving DecidableEq

/-- `pypi_types::DirectUrl`: the persisted provenance record. -/
inductive DirectUrl where
  | ArchiveUrl (url : Chars) (archive_info : ArchiveInfo) (subdirectory : Option Chars)
  | VcsUrl (url : Chars) (vcs_info : VcsInfo) (subdirectory : Option Chars)
deriving DecidableEq

/-- The error of `TryFrom<Source> for DirectUrl`: provenance requested for a
registry-classified source. -/
inductive DirectUrlError where
  | notDirect
deriving DecidableEq

/-- `TryFrom<Source> for DirectUrl`. -/
def directUrlFromSource : Source → Except DirectUrlError DirectUrl
  | .RegistryUrl _ => .error .notDirect
  | .RemoteUrl url subdirectory =>
    .ok (.ArchiveUrl url.asStr ⟨none, none⟩ subdirectory)
  | .Git git subdirectory =>
    .ok (.VcsUrl git.url.asStr ⟨.git, git.precise, git.reference⟩ subdirectory)

/-- `PackageNameSpecifier` from `name_specifiers.rs`; package names are
modelled as strings. -/
inductive PackageNameSpecifier where
  | All
  | None
  | Package (name : String)
deriving DecidableEq

/-- `PackageNameSpecifiers`, the collapsed selection state. -/
inductive PackageNameSpecifiers where
  | All
  | None
  | Packages (names : List String)
deriving DecidableEq

/-- The body of the `for` loop of `PackageNameSpecifiers::from_iter`, acting
on the `(packages, all)` state. -/
def collapseStep (st : List String × Bool) :
    PackageNameSpecifier → List String × Bool
  | .None => ([], false)
  | .All => (st.1, true)
  | .Package name => (st.1 ++ [name], st.2)

/-- `PackageNameSpecifiers::from_iter`: fold the loop body over the input
from an empty state, then dispatch on the final state. -/
def from_iter (specifiers : List PackageNameSpecifier) : PackageNameSpecifiers :=
  let st := specifiers.foldl collapseStep ([], false)
  if st.2 then .All
  else if st.1.isEmpty then .None
  else .Packages st.1

/-- Written from the spec's words, for comparison with `extractSubdirectory`:
split the fragment on `&` into key=value tokens and return the value of the
first token whose key is exactly `subdirectory`. -/
def subdirSpec (u : Url) : Option Chars :=
  u.fragment.bind fun fragment =>
    (splitOnChar '&' fragment).findSome? fun tok =>
      match splitAtFirst '=' tok with
      | some kv => if kv.1 = chars "subdirectory" then some kv.2 else none
      | none => none

/-- Written from the spec's words, for comparison with `from_iter`: traverse
left-to-right carrying the accumulated name list and the all-seen flag;
`None` clears both, `All` sets the flag, `Package` appends; at the end
dispatch on flag and emptiness. -/
def collapseSpecGo (acc : List String) (allSeen : Bool) :
    List PackageNameSpecifier → PackageNameSpecifiers
  | [] => if allSeen then .All else if acc = [] then .None else .Packages acc
  | .None :: rest => collapseSpecGo [] false rest
  | .All :: rest => collapseSpecGo acc true rest
  | .Package n :: rest => collapseSpecGo (acc ++ [n]) allSeen rest

/-- The spec's collapse, starting from the empty list and a cleared flag. -/
def collapseSpec (xs : List PackageNameSpecifier) : PackageNameSpecifiers :=
  collapseSpecGo [] false xs

/-! Helper lemmas about the string-level operations. -/

theorem stripLead_eq_some_iff {p s r : Chars} :
    stripLead p s = some r ↔ s = p ++ r := by
  induction p generalizing s with
  | nil => simp [stripLead]
  | cons a ps ih =>
    cases s with
    | nil => simp [stripLead]
    | cons c cs =>
      by_cases hac : a = c
      · subst hac
        simp [stripLead, ih]
      · simp only [stripLead, if_neg hac]
        constructor
        · intro h; cases h
        · intro h
          rw [List.cons_append] at h
          injection h with h1 h2
          exact absurd h1.symm hac

theorem splitAtFirst_eq_none_iff {sep : Char} {l : Chars} :
    splitAtFirst sep l = none ↔ sep ∉ l := by
  induction l with
  | nil => simp [splitAtFirst]
  | cons c cs ih =>
    by_cases hcs : c = sep
    · subst hcs
      simp [splitAtFirst]
    · simp only [splitAtFirst, if_neg hcs]
      rw [Option.map_eq_none', ih]
      constructor
      · intro h hmem
        rcases List.mem_cons.mp hmem with h1 | h1
        · exact hcs h1.symm
        · exact h h1
      · intro h hm
        exact h (List.mem_cons_of_mem _ hm)

theorem eq_of_splitAtFirst {sep : Char} {l a b : Chars}
    (h : splitAtFirst sep l = some (a, b)) : l = a ++ sep :: b ∧ sep ∉ a := by
  induction l generalizing a b with
  | nil => simp [splitAtFirst] at h
  | cons c cs ih =>
    by_cases hcs : c = sep
    · subst hcs
      simp [splitAtFirst] at h
      obtain ⟨ha, hb⟩ := h
      subst ha; subst hb
      simp
    · simp only [splitAtFirst, if_neg hcs] at h
      cases hsp : splitAtFirst sep cs with
      | none => rw [hsp] at h; cases h
      | some kv =>
        rw [hsp] at h
        obtain ⟨k, v⟩ := kv
        simp at h
        obtain ⟨ha, hb⟩ := h
        obtain ⟨hl, hm⟩ := ih hsp
        subst hb
        constructor
        · rw [← ha]; simp [hl]
        · rw [← ha]
          intro hmem
          rcases List.mem_cons.mp hmem with h1 | h1
          · exact hcs h1.symm
          · exact hm h1

theorem splitAtFirst_append {sep : Char} {a : Chars} (b : Chars) (h : sep ∉ a) :
    splitAtFirst sep (a ++ b) =
      (splitAtFirst sep b).map (fun p => (a ++ p.1, p.2)) := by
  induction a with
  | nil =>
    rw [List.nil_append]
    cases splitAtFirst sep b <;> simp
  | cons c a2 ih =>
    have hc : c ≠ sep := fun he => h (he ▸ List.mem_cons_self _ _)
    have ha2 : sep ∉ a2 := fun hm => h (List.mem_cons_of_mem _ hm)
    rw [List.cons_append]
    show (if c = sep then some ([], a2 ++ b)
        else (splitAtFirst sep (a2 ++ b)).map fun p => (c :: p.1, p.2)) = _
    rw [if_neg hc, ih ha2]
    cases splitAtFirst sep b <;> simp

theorem splitAtFirst_sep {sep : Char} {a : Chars} (b : Chars) (h : sep ∉ a) :
    splitAtFirst sep (a ++ sep :: b) = some (a, b) := by
  rw [splitAtFirst_append (sep :: b) h]
  simp [splitAtFirst]

theorem all_isSchemeChar_of_validScheme {s : Chars} (h : validScheme s = true) :
    ∀ c ∈ s, isSchemeChar c = true := by
  cases s with
  | nil => simp [validScheme] at h
  | cons c cs =>
    simp only [validScheme, Bool.and_eq_true, List.all_eq_true] at h
    intro d hd
    rcases List.mem_cons.mp hd with h1 | h1
    · subst h1
      simp [isSchemeChar, h.1]
    · exact h.2 d h1

theorem not_mem_of_validScheme {s : Chars} {c : Char} (h : validScheme s = true)
    (hc : isSchemeChar c = false) : c ∉ s := by
  intro hm
  rw [all_isSchemeChar_of_validScheme h c hm] at hc
  cases hc

theorem asStr_eq (sch rest : Chars) (f : Option Chars) :
    Url.asStr ⟨sch, rest, f⟩ = sch ++ ':' :: rest ++ fragPart f := rfl

theorem parse_asStr {u : Url} (h1 : validScheme u.scheme = true)
    (h2 : '#' ∉ u.rest) : Url.parse u.asStr = some u := by
  obtain ⟨sch, rest, frag⟩ := u
  have hsh : '#' ∉ sch := not_mem_of_validScheme h1 (by decide)
  have hsc : ':' ∉ sch := not_mem_of_validScheme h1 (by decide)
  cases frag with
  | none =>
    have e0 : Url.asStr ⟨sch, rest, none⟩ = sch ++ ':' :: rest := by
      simp [Url.asStr, fragPart]
    have e1 : splitAtFirst '#' (sch ++ ':' :: rest) = none := by
      apply splitAtFirst_eq_none_iff.mpr
      intro hm
      rcases List.mem_append.mp hm with h3 | h3
      · exact hsh h3
      · rcases List.mem_cons.mp h3 with h4 | h4
        · cases h4
        · exact h2 h4
    have e2 : splitAtFirst ':' (sch ++ ':' :: rest) = some (sch, rest) :=
      splitAtFirst_sep rest hsc
    simp [Url.parse, e0, e1, e2, h1]
  | some f =>
    have e0 : Url.asStr ⟨sch, rest, some f⟩ = (sch ++ ':' :: rest) ++ '#' :: f := by
      simp [Url.asStr, fragPart]
    have e1 : splitAtFirst '#' ((sch ++ ':' :: rest) ++ '#' :: f) =
        some (sch ++ ':' :: rest, f) := by
      apply splitAtFirst_sep
      intro hm
      rcases List.mem_append.mp hm with h3 | h3
      · exact hsh h3
      · rcases List.mem_cons.mp h3 with h4 | h4
        · cases h4
        · exact h2 h4
    have e2 : splitAtFirst ':' (sch ++ ':' :: rest) = some (sch, rest) :=
      splitAtFirst_sep rest hsc
    rw [e0]
    simp only [Url.parse, e1, e2, h1]
    rfl

theorem validScheme_gitPlus {sch : Chars} (h : validScheme sch = true) :
    validScheme (chars "git+" ++ sch) = true := by
  have hall := all_isSchemeChar_of_validScheme h
  have e : chars "git+" ++ sch = 'g' :: ('i' :: 't' :: '+' :: sch) := rfl
  rw [e]
  simp only [validScheme, Bool.and_eq_true, List.all_eq_true]
  refine ⟨by decide, ?_⟩
  intro c hc
  rcases List.mem_cons.mp hc with h1 | h1
  · subst h1; decide
  rcases List.mem_cons.mp h1 with h2 | h2
  · subst h2; decide
  rcases List.mem_cons.mp h2 with h3 | h3
  · subst h3; decide
  · exact hall c h3

theorem asStr_gitPlus (sch rest : Chars) (f : Option Chars) :
    chars "git+" ++ Url.asStr ⟨sch, rest, f⟩ =
      Url.asStr ⟨chars "git+" ++ sch, rest, f⟩ := by
  simp [Url.asStr, List.append_assoc]

theorem parse_gitPlus {sch rest : Chars} {f : Option Chars}
    (h1 : validScheme sch = true) (h2 : '#' ∉ rest) :
    Url.parse (chars "git+" ++ Url.asStr ⟨sch, rest, f⟩) =
      some ⟨chars "git+" ++ sch, rest, f⟩ := by
  rw [asStr_gitPlus]
  exact parse_asStr (validScheme_gitPlus h1) h2

theorem subdirTok_eq (tok : Chars) :
    stripLead (chars "subdirectory=") tok =
      (match splitAtFirst '=' tok with
       | some kv => if kv.1 = chars "subdirectory" then some kv.2 else none
       | none => none) := by
  cases hsp : splitAtFirst '=' tok with
  | none =>
    have hne : '=' ∉ tok := splitAtFirst_eq_none_iff.mp hsp
    cases hv : stripLead (chars "subdirectory=") tok with
    | none => rfl
    | some v =>
      exfalso
      apply hne
      rw [stripLead_eq_some_iff.mp hv]
      exact List.mem_append.mpr (Or.inl (by decide))
  | some kv =>
    obtain ⟨k, v⟩ := kv
    obtain ⟨htok, hnk⟩ := eq_of_splitAtFirst hsp
    by_cases hk : k = chars "subdirectory"
    · subst hk
      have hv : stripLead (chars "subdirectory=") tok = some v :=
        stripLead_eq_some_iff.mpr htok
      rw [hv]
      simp
    · cases hv : stripLead (chars "subdirectory=") tok with
      | none => simp [hk]
      | some v2 =>
        exfalso
        have htok2 : tok = chars "subdirectory=" ++ v2 :=
          stripLead_eq_some_iff.mp hv
        have hsp2 : splitAtFirst '=' tok = some (chars "subdirectory", v2) := by
          rw [htok2]
          exact @splitAtFirst_sep '=' (chars "subdirectory") v2 (by decide)
        rw [hsp] at hsp2
        injection hsp2 with hkv
        exact hk (congrArg Prod.fst hkv)

theorem findSome?_ext {α β : Type} (f g : α → Option β) (h : ∀ a, f a = g a) :
    ∀ l : List α, l.findSome? f = l.findSome? g := by
  intro l
  induction l with
  | nil => rfl
  | cons a l ih =>
    show (match f a with | some b => some b | none => l.findSome? f) =
      (match g a with | some b => some b | none => l.findSome? g)
    rw [h a, ih]

/-! Helper lemmas about the collapse fold. -/

theorem foldl_reset (A ys : List PackageNameSpecifier) (st : List String × Bool) :
    (A ++ .None :: ys).foldl collapseStep st = ys.foldl collapseStep ([], false) := by
  rw [List.foldl_append]
  rfl

theorem collapse_reset (A ys : List PackageNameSpecifier) :
    from_iter (A ++ .None :: ys) = from_iter ys := by
  unfold from_iter
  rw [foldl_reset]

theorem flag_stays :
    ∀ ys : List PackageNameSpecifier, PackageNameSpecifier.None ∉ ys →
      ∀ st : List String × Bool, st.2 = true →
        (ys.foldl collapseStep st).2 = true := by
  intro ys
  induction ys with
  | nil => intro _ st hst; exact hst
  | cons y ys ih =>
    intro h st hst
    have hys : PackageNameSpecifier.None ∉ ys :=
      fun hm => h (List.mem_cons_of_mem _ hm)
    cases y with
    | All => exact ih hys (st.1, true) rfl
    | None => exact absurd (List.mem_cons_self _ _) h
    | Package n => exact ih hys (st.1 ++ [n], st.2) hst

theorem flag_set :
    ∀ ys : List PackageNameSpecifier, PackageNameSpecifier.None ∉ ys →
      PackageNameSpecifier.All ∈ ys →
        ∀ st : List String × Bool, (ys.foldl collapseStep st).2 = true := by
  intro ys
  induction ys with
  | nil => intro _ hA; cases hA
  | cons y ys ih =>
    intro hN hA st
    have hys : PackageNameSpecifier.None ∉ ys :=
      fun hm => hN (List.mem_cons_of_mem _ hm)
    cases y with
    | None => exact absurd (List.mem_cons_self _ _) hN
    | All => exact flag_stays ys hys (st.1, true) rfl
    | Package n =>
      have hA2 : PackageNameSpecifier.All ∈ ys := by
        rcases List.mem_cons.mp hA with h1 | h1
        · cases h1
        · exact h1
      exact ih hys hA2 (st.1 ++ [n], st.2)

theorem from_iter_all {xs : List PackageNameSpecifier}
    (h : (xs.foldl collapseStep ([], false)).2 = true) : from_iter xs = .All := by
  unfold from_iter
  simp [h]

theorem collapseSpecGo_eq :
    ∀ (xs : List PackageNameSpecifier) (acc : List String) (flag : Bool),
      collapseSpecGo acc flag xs =
        (if (xs.foldl collapseStep (acc, flag)).2 then .All
         else if (xs.foldl collapseStep (acc, flag)).1.isEmpty then .None
         else .Packages (xs.foldl collapseStep (acc, flag)).1) := by
  intro xs
  induction xs with
  | nil =>
    intro acc flag
    cases flag <;> cases acc <;> simp [collapseSpecGo]
  | cons y ys ih =>
    intro acc flag
    cases y <;> simp [collapseSpecGo, collapseStep, ih]

theorem extractSubdirectory_eq_subdirSpec (u : Url) :
    extractSubdirectory u = subdirSpec u := by
  unfold extractSubdirectory subdirSpec
  cases hf : u.fragment with
  | none => rfl
  | some f =>
    show (splitOnChar '&' f).findSome? _ = (splitOnChar '&' f).findSome? _
    exact findSome?_ext _ _ subdirTok_eq _

/-! The claims. -/

/-- C1: `from_iter` folds its input left-to-right with an accumulated name
list (initially empty) and an all-seen flag (initially false): `None` clears
both, `All` sets the flag leaving the list untouched, `Package` appends the
name unconditionally; at the end the result is `All` if the flag is set, else
`None` if the list is empty, else `Packages` of the accumulated list in
insertion order with duplicates; and the three concrete examples hold. -/
theorem claim_C1 :
    (∀ xs : List PackageNameSpecifier, from_iter xs = collapseSpec xs) ∧
    from_iter [] = .None ∧
    from_iter [.All] = .All ∧
    from_iter [.Package "a", .Package "a"] = .Packages ["a", "a"] := by
  refine ⟨?_, by decide, by decide, by decide⟩
  intro xs
  unfold collapseSpec
  rw [collapseSpecGo_eq xs [] false]
  rfl

/-- C2: the extracted subdirectory is the value of the first `&`-separated
fragment token whose key is exactly `subdirectory` (later `subdirectory=`
tokens and unrelated tokens such as `egg=...` are ignored); with no fragment
or no such token it is `none`, not an empty path. -/
theorem claim_C2 :
    (∀ u : Url, extractSubdirectory u = subdirSpec u) ∧
    (∀ sch rest : Chars, extractSubdirectory ⟨sch, rest, none⟩ = none) ∧
    (∀ sch rest : Chars,
      extractSubdirectory ⟨sch, rest, some (chars "egg=pkg")⟩ = none) ∧
    extractSubdirectory ⟨chars "https", chars "//example.com/p",
      some (chars "subdirectory=x&subdirectory=y")⟩ = some (chars "x") ∧
    extractSubdirectory ⟨chars "https", chars "//example.com/p",
      some (chars "egg=pkg&subdirectory=dir")⟩ = some (chars "dir") :=
  ⟨extractSubdirectory_eq_subdirSpec, fun _ _ => rfl, fun _ _ => rfl,
    by decide, by decide⟩

/-- C3: for a URL whose string form begins with `git+`, `classify` strips
exactly that head, parses the remainder (a failure surfaces as a URL parse
error and never falls back to `RemoteUrl`), hands the parsed remainder to the
VCS-locator constructor (a failure surfaces as a VCS-locator error), and on
success returns `Git` with the extracted subdirectory. -/
theorem claim_C3 (u : Url) (rest : Chars) (h : u.asStr = chars "git+" ++ rest) :
    (Url.parse rest = none →
      classify u = .error (.urlParse rest) ∧ ∀ s, classify u ≠ .ok s) ∧
    (∀ u2, Url.parse rest = some u2 → Git.tryFrom u2 = none →
      classify u = .error (.vcsLocator u2)) ∧
    (∀ u2 g, Url.parse rest = some u2 → Git.tryFrom u2 = some g →
      classify u = .ok (.Git g (extractSubdirectory u))) := by
  have hstrip : stripLead (chars "git+") u.asStr = some rest :=
    stripLead_eq_some_iff.mpr h
  refine ⟨?_, ?_, ?_⟩
  · intro hp
    have hcl : classify u = .error (.urlParse rest) := by
      simp [classify, hstrip, hp]
    exact ⟨hcl, fun s hs => by rw [hcl] at hs; cases hs⟩
  · intro u2 hp hg
    simp [classify, hstrip, hp, hg]
  · intro u2 g hp hg
    simp [classify, hstrip, hp, hg]

/-- Witness for C3: a well-formed `git+` URL classifies as `Git`, and a
`git+` URL with an unparseable remainder fails with a URL parse error. -/
theorem claim_C3_witness :
    classify ⟨chars "git+https", chars "//example.com/r.git", none⟩ =
      .ok (.Git ⟨⟨chars "https", chars "//example.com/r.git", none⟩,
        none, none⟩ none) ∧
    classify ⟨chars "git+", chars "", none⟩ = .error (.urlParse (chars ":")) := by
  constructor
  · exact (claim_C3 ⟨chars "git+https", chars "//example.com/r.git", none⟩
      (chars "https://example.com/r.git") (by decide)).2.2
      ⟨chars "https", chars "//example.com/r.git", none⟩
      ⟨⟨chars "https", chars "//example.com/r.git", none⟩, none, none⟩
      (by decide) (by decide)
  · exact ((claim_C3 ⟨chars "git+", chars "", none⟩ (chars ":") (by decide)).1
      (by decide)).1

/-- C4: a URL whose string form does not begin with `git+` always classifies
as `RemoteUrl` carrying the original URL (fragment intact) and the extracted
subdirectory; a registry entry classifies as `RegistryUrl` of the parsed file
URL, a parse failure being surfaced rather than swallowed. -/
theorem claim_C4 :
    (∀ u : Url, stripLead (chars "git+") u.asStr = none →
      classify u = .ok (.RemoteUrl u (extractSubdirectory u)) ∧
      ∀ rest : Chars, u.asStr ≠ chars "git+" ++ rest) ∧
    (∀ (name version : Chars) (f : File) (pu : Url), Url.parse f.url = some pu →
      classifyRef (.Registry name version f) = .ok (.RegistryUrl pu)) ∧
    (∀ (name version : Chars) (f : File), Url.parse f.url = none →
      classifyRef (.Registry name version f) = .error (.urlParse f.url)) := by
  refine ⟨?_, ?_, ?_⟩
  · intro u h
    refine ⟨by simp [classify, h], ?_⟩
    intro rest hr
    rw [stripLead_eq_some_iff.mpr hr] at h
    cases h
  · intro name version f pu hp
    simp [classifyRef, hp]
  · intro name version f hp
    simp [classifyRef, hp]

/-- Witness for C4: a plain `https` archive URL with a `subdirectory`
fragment classifies as `RemoteUrl`, and a registry entry with a parseable
file URL classifies as `RegistryUrl`. -/
theorem claim_C4_witness :
    classify ⟨chars "https", chars "//example.com/pkg.tar.gz",
        some (chars "subdirectory=dir")⟩ =
      .ok (.RemoteUrl ⟨chars "https", chars "//example.com/pkg.tar.gz",
        some (chars "subdirectory=dir")⟩ (some (chars "dir"))) ∧
    classifyRef (.Registry (chars "n") (chars "1")
        ⟨chars "https://files.example.com/a.whl"⟩) =
      .ok (.RegistryUrl ⟨chars "https", chars "//files.example.com/a.whl",
        none⟩) := by
  constructor
  · exact (claim_C4.1 ⟨chars "https", chars "//example.com/pkg.tar.gz",
      some (chars "subdirectory=dir")⟩ (by decide)).1
  · exact claim_C4.2.1 (chars "n") (chars "1")
      ⟨chars "https://files.example.com/a.whl"⟩
      ⟨chars "https", chars "//files.example.com/a.whl", none⟩ (by decide)

/-- C5: converting `RemoteUrl` back to a URL replaces the fragment entirely
by `subdirectory=<path>` when a subdirectory is present, leaving every other
component unchanged, and returns the URL unchanged (original fragment
included) when none is present. -/
theorem claim_C5 (u : Url) (d : Chars) :
    sourceToUrl? (.RemoteUrl u (some d)) =
      some ⟨u.scheme, u.rest, some (chars "subdirectory=" ++ d)⟩ ∧
    sourceToUrl? (.RemoteUrl u none) = some u :=
  ⟨rfl, rfl⟩

/-- C6: conversion of a validly constructed `Source` back to a URL is total:
the re-parse of the `git+`-prefixed re-serialized locator URL in the `Git`
branch (the modelled `expect` site) never fails. -/
theorem claim_C6 (s : Source) (h : s.validB = true) :
    ∃ u : Url, sourceToUrl? s = some u := by
  cases s with
  | RegistryUrl url => exact ⟨url, rfl⟩
  | RemoteUrl url subdirectory =>
    cases subdirectory with
    | none => exact ⟨url, rfl⟩
    | some d => exact ⟨setFragment url (some (chars "subdirectory=" ++ d)), rfl⟩
  | Git git subdirectory =>
    obtain ⟨⟨sch, rest, frag⟩, ref, prec⟩ := git
    simp only [Source.validB, Bool.and_eq_true, decide_eq_true_eq] at h
    have hp := @parse_gitPlus sch rest frag h.1 h.2
    cases subdirectory with
    | none =>
      exact ⟨⟨chars "git+" ++ sch, rest, frag⟩, by
        simp [sourceToUrl?, Git.toUrl, hp]⟩
    | some d =>
      exact ⟨setFragment ⟨chars "git+" ++ sch, rest, frag⟩
        (some (chars "subdirectory=" ++ d)), by
        simp [sourceToUrl?, Git.toUrl, hp]⟩

/-- Witness for C6: a concrete valid `Git` source converts to a URL. -/
theorem claim_C6_witness :
    Source.validB (.Git ⟨⟨chars "https", chars "//example.com/r.git", none⟩,
      none, none⟩ (some (chars "d"))) = true ∧
    ∃ u : Url, sourceToUrl? (.Git ⟨⟨chars "https", chars "//example.com/r.git",
      none⟩, none, none⟩ (some (chars "d"))) = some u :=
  ⟨by decide, claim_C6 _ (by decide)⟩

/-- C7: the provenance record fails with the not-direct error exactly for
`RegistryUrl`; a `RemoteUrl` yields an `ArchiveUrl` with absent integrity
info, and a `Git` yields a `VcsUrl` whose resolved and requested revisions
come independently from the locator and whose subdirectory is the source's. -/
theorem claim_C7 :
    (∀ u : Url, directUrlFromSource (.RegistryUrl u) = .error .notDirect) ∧
    (∀ (u : Url) (sub : Option Chars),
      directUrlFromSource (.RemoteUrl u sub) =
        .ok (.ArchiveUrl u.asStr ⟨none, none⟩ sub)) ∧
    (∀ (g : Git) (sub : Option Chars),
      directUrlFromSource (.Git g sub) =
        .ok (.VcsUrl g.url.asStr ⟨.git, g.precise, g.reference⟩ sub)) ∧
    (∀ s : Source, (∃ e, directUrlFromSource s = .error e) ↔
      ∃ u, s = .RegistryUrl u) := by
  refine ⟨fun u => rfl, fun u sub => rfl, fun g sub => rfl, ?_⟩
  intro s
  constructor
  · intro ⟨e, he⟩
    cases s with
    | RegistryUrl u => exact ⟨u, rfl⟩
    | RemoteUrl u sub => simp [directUrlFromSource] at he
    | Git g sub => simp [directUrlFromSource] at he
  · intro ⟨u, hu⟩
    subst hu
    exact ⟨.notDirect, rfl⟩

/-- Witness for C7: a concrete registry source has no direct URL record. -/
theorem claim_C7_witness :
    directUrlFromSource (.RegistryUrl ⟨chars "https", chars "//pypi.org/a.whl",
      none⟩) = .error .notDirect ∧
    ∃ e, directUrlFromSource (.RegistryUrl ⟨chars "https",
      chars "//pypi.org/a.whl", none⟩) = .error e :=
  ⟨claim_C7.1 _, (claim_C7.2.2.2 _).mpr ⟨_, rfl⟩⟩

/-- C8: the latest `None` is a hard reset — collapsing `xs ++ [None] ++ ys`
equals collapsing `ys` alone — and within a reset-free segment any `All`
makes the result `All` regardless of where names appear in that segment. -/
theorem claim_C8 (xs ys : List PackageNameSpecifier) :
    from_iter (xs ++ .None :: ys) = from_iter ys ∧
    (PackageNameSpecifier.None ∉ ys → PackageNameSpecifier.All ∈ ys →
      from_iter (xs ++ .None :: ys) = .All) := by
  refine ⟨collapse_reset xs ys, ?_⟩
  intro hN hA
  rw [collapse_reset xs ys]
  exact from_iter_all (flag_set ys hN hA ([], false))

/-- Witness for C8: the reset discards the earlier name, and an `All` after
the last reset wins even with a name before it in the segment. -/
theorem claim_C8_witness :
    from_iter [.Package "a", .None, .Package "b"] = from_iter [.Package "b"] ∧
    from_iter [.Package "a", .None, .Package "b", .All] = .All := by
  refine ⟨(claim_C8 [.Package "a"] [.Package "b"]).1, ?_⟩
  exact (claim_C8 [.Package "a"] [.Package "b", .All]).2 (by decide) (by decide)

/-- C9: a package name appended while the all-seen flag is set never appears
in the final result: either the result is `All`, or a later `None` in the
remainder makes the result depend only on what follows that `None`. -/
theorem claim_C9 (xs : List PackageNameSpecifier) (n : String)
    (ys : List PackageNameSpecifier)
    (h : (xs.foldl collapseStep ([], false)).2 = true) :
    from_iter (xs ++ .Package n :: ys) = .All ∨
    ∃ zs ws, ys = zs ++ .None :: ws ∧
      from_iter (xs ++ .Package n :: ys) = from_iter ws := by
  by_cases hN : PackageNameSpecifier.None ∈ ys
  · right
    obtain ⟨zs, ws, hys⟩ := List.append_of_mem hN
    refine ⟨zs, ws, hys, ?_⟩
    subst hys
    have e : xs ++ .Package n :: (zs ++ .None :: ws) =
        (xs ++ .Package n :: zs) ++ .None :: ws := by simp
    rw [e, collapse_reset]
  · left
    apply from_iter_all
    rw [List.foldl_append]
    exact flag_stays ys hN _ h

/-- Witness for C9: after an `All`, a name is appended under a set flag and
the result is `All`. -/
theorem claim_C9_witness :
    ([PackageNameSpecifier.All].foldl collapseStep ([], false)).2 = true ∧
    (from_iter [.All, .Package "a"] = .All ∨
     ∃ zs ws, ([] : List PackageNameSpecifier) = zs ++ .None :: ws ∧
       from_iter [.All, .Package "a"] = from_iter ws) :=
  ⟨by decide, claim_C9 [.All] "a" [] (by decide)⟩

/-- C10: the url field of the `ArchiveUrl` record of a `RemoteUrl` source is
the full serialization of the original URL including its fragment; for the
URL `https://example.com/pkg.tar.gz#subdirectory=dir` the record keeps the
fragment in the url field while also carrying `dir` in the subdirectory
field. -/
theorem claim_C10 :
    (∀ (sch rest f : Chars) (sub : Option Chars),
      directUrlFromSource (.RemoteUrl ⟨sch, rest, some f⟩ sub) =
        .ok (.ArchiveUrl (sch ++ ':' :: rest ++ '#' :: f) ⟨none, none⟩ sub)) ∧
    classify ⟨chars "https", chars "//example.com/pkg.tar.gz",
        some (chars "subdirectory=dir")⟩ =
      .ok (.RemoteUrl ⟨chars "https", chars "//example.com/pkg.tar.gz",
        some (chars "subdirectory=dir")⟩ (some (chars "dir"))) ∧
    directUrlFromSource (.RemoteUrl ⟨chars "https",
        chars "//example.com/pkg.tar.gz", some (chars "subdirectory=dir")⟩
        (some (chars "dir"))) =
      .ok (.ArchiveUrl (chars "https://example.com/pkg.tar.gz#subdirectory=dir")
        ⟨none, none⟩ (some (chars "dir"))) :=
  ⟨fun _ _ _ _ => rfl, by decide, by decide⟩

end Uv
